import Mathlib

/-!
# Verification of the word-frequency colorizer (`src/app.js`)

Shallow embedding of the Node.js program that reads a text file, counts
word frequencies, and prints the first 15 lines with each word colored by
its overall frequency.

Modelling conventions:

* JS strings are `List Char`.
* The regex `\W+` used by `split` matches runs of non-word characters,
  where a word character is an ASCII letter, digit or underscore
  (`isWordChar`).  `s.split(/\W+/).filter(Boolean)` therefore yields the
  maximal runs of word characters of `s`; `tokenize` computes exactly that.
* `String.prototype.toLowerCase` applies the Unicode Default Case
  Conversion, mapping each code point to its (possibly multi-character)
  lowercase mapping.  `jsToLower : Char → List Char` implements it exactly
  on every code point whose lowercase mapping contains an ASCII word
  character: the ASCII uppercase letters, U+212A KELVIN SIGN (lowercase
  `k`), and U+0130 LATIN CAPITAL LETTER I WITH DOT ABOVE (lowercase
  `i` followed by U+0307).  Every other code point either maps to itself
  or is a non-word character whose lowercase mapping again contains only
  non-word characters; `jsToLower` keeps those fixed, which `\w`-run
  tokenization — the only consumer of lowercased text here — cannot
  distinguish from the real mapping.
* The JS object used as frequency table is modelled with its prototype
  chain: an association list of own properties in first-insertion order
  whose values are `JsVal` (a number, or a string produced by the `+`
  coercion), together with the `Object.prototype` fallback.  Every lookup
  the program performs uses a lowercased `\w`-run as key, and
  `constructor` and `__proto__` are the only `Object.prototype` property
  names consisting solely of lowercase word characters, so reads fall
  back to the inherited `Object` constructor function resp. the
  `__proto__` accessor (yielding `Object.prototype`), and every other
  absent key reads as `undefined` (`none`).  Assignment to `__proto__`
  hits the inherited accessor: with a string right-hand side it is a
  silent no-op.
* `chalk.blue/green/red` wrap the string in the concrete ANSI escape
  sequences chalk emits: `ESC[34m`/`ESC[32m`/`ESC[31m` before and the
  foreground reset `ESC[39m` after.
* The file system is an explicit parameter `Option (List Char)`:
  `none` models a missing/unreadable `declaration.txt`, in which case
  `fs.readFileSync` throws, modelled by `Except`.
* `console.log` output is modelled by returning the list of printed lines.
-/

namespace App

/-- `\w` of JavaScript regexes: ASCII letter, digit or underscore, that is
`a`–`z` (97–122), `A`–`Z` (65–90), `0`–`9` (48–57) or `_` (95). -/
def isWordChar (c : Char) : Bool :=
  decide ((97 ≤ c.toNat ∧ c.toNat ≤ 122) ∨ (65 ≤ c.toNat ∧ c.toNat ≤ 90) ∨
    (48 ≤ c.toNat ∧ c.toNat ≤ 57) ∨ c.toNat = 95)

/-- The ASCII fragment of Unicode lowercasing: `A`–`Z` (65–90) shift to
`a`–`z` (97–122), everything else is fixed. -/
def asciiToLower (c : Char) : Char :=
  if 65 ≤ c.toNat ∧ c.toNat ≤ 90 then Char.ofNat (c.toNat + 32) else c

/-- `String.prototype.toLowerCase`, per character (see the header): exact
on the ASCII range and on the only two code points whose Unicode
lowercase mapping introduces ASCII word characters — U+212A KELVIN SIGN
and U+0130 LATIN CAPITAL LETTER I WITH DOT ABOVE; all remaining
non-word characters stay non-word characters under the real mapping,
modelled by the identity. -/
def jsToLower (c : Char) : List Char :=
  if c.toNat = 0x212A then ['k']
  else if c.toNat = 0x130 then ['i', Char.ofNat 0x307]
  else [asciiToLower c]

/-- `s.toLowerCase()` for a whole string. -/
def jsLowerStr (s : List Char) : List Char := (s.map jsToLower).flatten

/-- `s.split(/\W+/).filter(Boolean)`: the maximal runs of word characters
of `s`, in order, empty pieces discarded. -/
def tokenize : List Char → List (List Char)
  | [] => []
  | c :: s =>
    if isWordChar c then
      match s with
      | [] => [[c]]
      | d :: _ =>
        if isWordChar d then
          match tokenize s with
          | t :: ts => (c :: t) :: ts
          | [] => [[c]]
        else
          [c] :: tokenize s
    else
      tokenize s

/-- `s.split('\n')`: split on newline, keeping empty pieces
(`"".split('\n')` is `[""]`). -/
def splitLines : List Char → List (List Char)
  | [] => [[]]
  | c :: s =>
    if c = '\n' then
      [] :: splitLines s
    else
      match splitLines s with
      | l :: ls => (c :: l) :: ls
      | [] => [[c]]

/-- `Array.prototype.join(sep)`. -/
def joinWith (sep : List Char) : List (List Char) → List Char
  | [] => []
  | [x] => x
  | x :: y :: zs => x ++ sep ++ joinWith sep (y :: zs)

/-- A JavaScript value reachable through `wordCount[k]`: a stored number,
a stored string (produced by `+` on a truthy non-number), the inherited
`Object` constructor function, or `Object.prototype` itself (the result
of reading the inherited `__proto__` accessor). -/
inductive JsVal : Type
  | num (n : Nat)
  | str (s : List Char)
  | fnObject
  | protoObject
deriving DecidableEq

/-- `Function.prototype.toString` of the built-in `Object` constructor as
V8 (Node.js) prints it.  The exact text is engine-defined; no theorem
depends on it. -/
def fnObjectString : List Char :=
  "function Object() \x7b [native code] \x7d".data

/-- The frequency table: the own properties of the plain JS object, an
association list in insertion order.  Reads additionally consult the
prototype chain (`jsLookup`). -/
abbrev FrequencyTable := List (List Char × JsVal)

/-- The own-property part of `wordCount[k]` (also `Object.keys` space). -/
def ownLookup (t : FrequencyTable) (k : List Char) : Option JsVal :=
  match t with
  | [] => none
  | (k₀, v) :: rest => if k₀ = k then some v else ownLookup rest k

/-- Property read `wordCount[k]` on a plain `{}` object: own property
first, then the prototype chain.  Every key the program looks up is a
lowercased `\w`-run, and `constructor` and `__proto__` are the only
`Object.prototype` property names made solely of lowercase word
characters, so the remaining inherited names are unreachable;
`Option.none` models `undefined`. -/
def jsLookup (t : FrequencyTable) (k : List Char) : Option JsVal :=
  match ownLookup t k with
  | some v => some v
  | none =>
    if k = "constructor".data then some JsVal.fnObject
    else if k = "__proto__".data then some JsVal.protoObject
    else none

/-- The value of `(wordCount[word] || 0) + 1`: `undefined` and other falsy
values give `0 + 1 = 1`; a truthy number increments; a truthy non-number
coerces `+ 1` to string concatenation (`ToPrimitive` of the function and
of `Object.prototype` are their `toString` results). -/
def jsOrZeroPlusOne : Option JsVal → JsVal
  | none => JsVal.num 1
  | some (JsVal.num n) => JsVal.num (n + 1)
  | some (JsVal.str s) => if s = [] then JsVal.num 1 else JsVal.str (s ++ ['1'])
  | some JsVal.fnObject => JsVal.str (fnObjectString ++ ['1'])
  | some JsVal.protoObject => JsVal.str ("[object Object]".data ++ ['1'])

/-- Own-property write `obj[w] = v`: update in place or append. -/
def setOwn (t : FrequencyTable) (w : List Char) (v : JsVal) : FrequencyTable :=
  match t with
  | [] => [(w, v)]
  | (k, v₀) :: rest =>
    if k = w then (k, v) :: rest else (k, v₀) :: setOwn rest w v

/-- One loop iteration of `getWordCounts`:
`wordCount[word] = (wordCount[word] || 0) + 1`.  For the key `__proto__`
the assignment invokes the inherited accessor, which silently ignores a
string right-hand side, leaving the object unchanged. -/
def bump (t : FrequencyTable) (w : List Char) : FrequencyTable :=
  if w = "__proto__".data then t
  else setOwn t w (jsOrZeroPlusOne (jsLookup t w))

/-- `getWordCounts(content)`: lowercase the content, split on `\W+`,
drop empties, and count each word. -/
def getWordCounts (content : List Char) : FrequencyTable :=
  (tokenize (jsLowerStr content)).foldl bump []

/-- The escape character of ANSI color sequences. -/
def esc : Char := Char.ofNat 27

/-- The opening sequence chalk emits for `chalk.blue`. -/
def ansiBlue : List Char := [esc, '[', '3', '4', 'm']

/-- The opening sequence chalk emits for `chalk.green`. -/
def ansiGreen : List Char := [esc, '[', '3', '2', 'm']

/-- The opening sequence chalk emits for `chalk.red`. -/
def ansiRed : List Char := [esc, '[', '3', '1', 'm']

/-- The closing (foreground reset) sequence chalk emits. -/
def ansiReset : List Char := [esc, '[', '3', '9', 'm']

/-- JS `a >= b` for `a` a table lookup: `ToNumber` of `undefined`, of the
inherited function, of `Object.prototype` and of this program's stored
strings (they always begin `function ` or `[object `, never numerically)
is `NaN`, and every comparison with `NaN` is `false`. -/
def jsGe (a : Option JsVal) (b : Nat) : Bool :=
  match a with
  | some (JsVal.num n) => decide (b ≤ n)
  | _ => false

/-- JS `a <= b` for `a` a table lookup; `NaN` cases as in `jsGe`. -/
def jsLe (a : Option JsVal) (b : Nat) : Bool :=
  match a with
  | some (JsVal.num n) => decide (n ≤ b)
  | _ => false

/-- `colorWord(word, count)`: blue for count strictly equal (`===`) to the
number 1, green for 2–5, red otherwise (including `undefined` and every
non-number). -/
def colorWord (word : List Char) (count : Option JsVal) : List Char :=
  if count = some (JsVal.num 1) then
    ansiBlue ++ word ++ ansiReset
  else if jsGe count 2 && jsLe count 5 then
    ansiGreen ++ word ++ ansiReset
  else
    ansiRed ++ word ++ ansiReset

/-- The body of the loop in `printColoredLines`: tokenize the line,
color each word by the lookup of its lowercased form, join with a single
space and append one trailing space. -/
def coloredLine (wordCount : FrequencyTable) (line : List Char) : List Char :=
  joinWith [' ']
      ((tokenize line).map fun w => colorWord w (jsLookup wordCount (jsLowerStr w)))
    ++ [' ']

/-- `printColoredLines(content, wordCount)`: the list of lines printed to
the console. -/
def printColoredLines (content : List Char) (wordCount : FrequencyTable) :
    List (List Char) :=
  ((splitLines content).take 15).map (coloredLine wordCount)

/-- The I/O error thrown by `fs.readFileSync` when the file is missing or
unreadable. -/
inductive IOErr : Type
  | fileError
deriving DecidableEq

/-- `readFileContent()`: reads `declaration.txt` from the file system
(modelled as an explicit `Option` parameter); throws when absent. -/
def readFileContent (fileSystem : Option (List Char)) :
    Except IOErr (List Char) :=
  match fileSystem with
  | some content => Except.ok content
  | none => Except.error IOErr.fileError

/-- `processFile()`: read, count, render; the result is the sequence of
printed lines, or the propagated I/O error. -/
def processFile (fileSystem : Option (List Char)) :
    Except IOErr (List (List Char)) := do
  let content ← readFileContent fileSystem
  let wordCount := getWordCounts content
  pure (printColoredLines content wordCount)

/-! ## Equation and structure lemmas for `tokenize` -/

theorem tokenize_cons (c : Char) (s : List Char) :
    tokenize (c :: s) =
      if isWordChar c then
        match s with
        | [] => [[c]]
        | d :: _ =>
          if isWordChar d then
            match tokenize s with
            | t :: ts => (c :: t) :: ts
            | [] => [[c]]
          else [c] :: tokenize s
      else tokenize s := by
  rw [tokenize.eq_def]

theorem tokenize_cons_nonword {c : Char} {s : List Char}
    (hc : isWordChar c = false) : tokenize (c :: s) = tokenize s := by
  rw [tokenize_cons, hc]
  simp

theorem tokenize_singleton_word {c : Char} (hc : isWordChar c = true) :
    tokenize [c] = [[c]] := by
  rw [tokenize_cons, hc]
  simp

theorem tokenize_cons2_word_nonword {c d : Char} {s : List Char}
    (hc : isWordChar c = true) (hd : isWordChar d = false) :
    tokenize (c :: d :: s) = [c] :: tokenize (d :: s) := by
  rw [tokenize_cons, hc]
  simp [hd]

theorem tokenize_cons2_word_word {c d : Char} {s : List Char}
    (hc : isWordChar c = true) (hd : isWordChar d = true) :
    tokenize (c :: d :: s) =
      match tokenize (d :: s) with
      | t :: ts => (c :: t) :: ts
      | [] => [[c]] := by
  rw [tokenize_cons, hc]
  simp [hd]

theorem tokenize_word_ne_nil {d : Char} {s : List Char}
    (hd : isWordChar d = true) : tokenize (d :: s) ≠ [] := by
  rw [tokenize_cons, hd]
  cases s with
  | nil => simp
  | cons e s =>
    by_cases he : isWordChar e = true
    · rcases h : tokenize (e :: s) with _ | ⟨t, ts⟩ <;> simp [he, h]
    · simp [he]

/-! ## Lowercasing preserves word characters -/

theorem toNat_ofNat_of_le {n : Nat} (h : n ≤ 1000) :
    (Char.ofNat n).toNat = n := by
  have hv : Nat.isValidChar n := Or.inl (by omega)
  unfold Char.ofNat
  rw [dif_pos hv]
  simp [Char.ofNatAux, Char.toNat, UInt32.toNat, BitVec.toNat_ofNatLt]

theorem asciiToLower_toNat (c : Char) :
    (asciiToLower c).toNat =
      if 65 ≤ c.toNat ∧ c.toNat ≤ 90 then c.toNat + 32 else c.toNat := by
  unfold asciiToLower
  by_cases h : 65 ≤ c.toNat ∧ c.toNat ≤ 90
  · rw [if_pos h, if_pos h, toNat_ofNat_of_le (by omega)]
  · rw [if_neg h, if_neg h]

theorem isWordChar_asciiToLower (c : Char) :
    isWordChar (asciiToLower c) = isWordChar c := by
  unfold isWordChar
  rw [asciiToLower_toNat]
  by_cases h : 65 ≤ c.toNat ∧ c.toNat ≤ 90
  · rw [if_pos h]
    simp only [decide_eq_decide]
    omega
  · rw [if_neg h]

/-! ## Tokenization commutes with lowercasing -/

theorem tokenize_map_asciiToLower (s : List Char) :
    tokenize (s.map asciiToLower) = (tokenize s).map (List.map asciiToLower) := by
  induction s with
  | nil => rfl
  | cons c s ih =>
    by_cases hc : isWordChar c = true
    · have hc' : isWordChar (asciiToLower c) = true := by
        rw [isWordChar_asciiToLower]; exact hc
      cases s with
      | nil =>
        simp only [List.map]
        rw [tokenize_singleton_word hc, tokenize_singleton_word hc']
        rfl
      | cons d s' =>
        by_cases hd : isWordChar d = true
        · have hd' : isWordChar (asciiToLower d) = true := by
            rw [isWordChar_asciiToLower]; exact hd
          simp only [List.map] at ih ⊢
          rw [tokenize_cons2_word_word hc hd, tokenize_cons2_word_word hc' hd', ih]
          cases h : tokenize (d :: s') with
          | nil => rfl
          | cons t ts => rfl
        · have hd'' : isWordChar d = false := by
            cases hh : isWordChar d with
            | true => exact absurd hh hd
            | false => rfl
          have hd' : isWordChar (asciiToLower d) = false := by
            rw [isWordChar_asciiToLower]; exact hd''
          simp only [List.map] at ih ⊢
          rw [tokenize_cons2_word_nonword hc hd'', tokenize_cons2_word_nonword hc' hd', ih]
          rfl
    · have hc'' : isWordChar c = false := by
        cases hh : isWordChar c with
        | true => exact absurd hh hc
        | false => rfl
      have hc' : isWordChar (asciiToLower c) = false := by
        rw [isWordChar_asciiToLower]; exact hc''
      simp only [List.map]
      rw [tokenize_cons_nonword hc'', tokenize_cons_nonword hc', ih]

/-! ## Every character of every token is a word character -/

theorem mem_tokenize_word {s : List Char} :
    ∀ w ∈ tokenize s, ∀ c ∈ w, isWordChar c = true := by
  induction s with
  | nil => intro w hw; simp [tokenize] at hw
  | cons c s ih =>
    by_cases hc : isWordChar c = true
    · cases s with
      | nil =>
        rw [tokenize_singleton_word hc]
        intro w hw e he
        simp at hw
        subst hw
        simp at he
        subst he
        exact hc
      | cons d s' =>
        by_cases hd : isWordChar d = true
        · rw [tokenize_cons2_word_word hc hd]
          cases h : tokenize (d :: s') with
          | nil =>
            intro w hw e he
            simp at hw
            subst hw
            simp at he
            subst he
            exact hc
          | cons t ts =>
            intro w hw e he
            simp at hw
            rcases hw with hw | hw
            · subst hw
              simp at he
              rcases he with he | he
              · subst he; exact hc
              · exact ih t (h ▸ List.mem_cons_self t ts) e he
            · exact ih w (h ▸ List.mem_cons_of_mem t hw) e he
        · have hd'' : isWordChar d = false := by
            cases hh : isWordChar d with
            | true => exact absurd hh hd
            | false => rfl
          rw [tokenize_cons2_word_nonword hc hd'']
          intro w hw e he
          rcases List.mem_cons.mp hw with hw | hw
          · subst hw
            simp at he
            subst he
            exact hc
          · exact ih w hw e he
    · have hc'' : isWordChar c = false := by
        cases hh : isWordChar c with
        | true => exact absurd hh hc
        | false => rfl
      rw [tokenize_cons_nonword hc'']
      exact ih

/-! ## Tokenization across a delimiter, and line structure -/

theorem bool_eq_false {b : Bool} (h : ¬b = true) : b = false := by
  cases hh : b with
  | true => exact absurd hh h
  | false => rfl

theorem tokenize_append_nonword {b : Char} (hb : isWordChar b = false)
    (r : List Char) :
    ∀ a : List Char, tokenize (a ++ b :: r) = tokenize a ++ tokenize r := by
  intro a
  induction a with
  | nil =>
    rw [List.nil_append, tokenize_cons_nonword hb]
    rfl
  | cons c a' ih =>
    by_cases hc : isWordChar c = true
    · cases a' with
      | nil =>
        rw [List.cons_append, List.nil_append, tokenize_cons2_word_nonword hc hb,
          tokenize_cons_nonword hb, tokenize_singleton_word hc]
        rfl
      | cons d a'' =>
        by_cases hd : isWordChar d = true
        · rw [List.cons_append, List.cons_append,
            tokenize_cons2_word_word hc hd]
          rw [List.cons_append] at ih
          rw [ih]
          rcases h : tokenize (d :: a'') with _ | ⟨t, ts⟩
          · exact absurd h (tokenize_word_ne_nil hd)
          · rw [tokenize_cons2_word_word hc hd, h]
            rfl
        · have hd' := bool_eq_false hd
          rw [List.cons_append, List.cons_append,
            tokenize_cons2_word_nonword hc hd']
          rw [List.cons_append] at ih
          rw [ih, tokenize_cons2_word_nonword hc hd']
          rfl
    · have hc' := bool_eq_false hc
      rw [List.cons_append, tokenize_cons_nonword hc',
        tokenize_cons_nonword hc', ih]

theorem splitLines_cons (c : Char) (s : List Char) :
    splitLines (c :: s) =
      if c = '\n' then [] :: splitLines s
      else
        match splitLines s with
        | l :: ls => (c :: l) :: ls
        | [] => [[c]] := by
  rw [splitLines.eq_def]

theorem splitLines_ne_nil (s : List Char) : splitLines s ≠ [] := by
  cases s with
  | nil => simp [splitLines]
  | cons c s =>
    rw [splitLines_cons]
    by_cases hc : c = '\n'
    · simp [hc]
    · rcases h : splitLines s with _ | ⟨l, ls⟩ <;> simp [hc, h]

theorem joinWith_cons2 (sep x y : List Char) (zs : List (List Char)) :
    joinWith sep (x :: y :: zs) = x ++ sep ++ joinWith sep (y :: zs) := rfl

theorem joinWith_cons_head (sep : List Char) (c : Char) (l : List Char)
    (ls : List (List Char)) :
    joinWith sep ((c :: l) :: ls) = c :: joinWith sep (l :: ls) := by
  cases ls with
  | nil => rfl
  | cons y zs => simp [joinWith_cons2]

theorem joinWith_splitLines (s : List Char) :
    joinWith ['\n'] (splitLines s) = s := by
  induction s with
  | nil => rfl
  | cons c s ih =>
    rw [splitLines_cons]
    by_cases hc : c = '\n'
    · rw [if_pos hc]
      rcases h : splitLines s with _ | ⟨l, ls⟩
      · exact absurd h (splitLines_ne_nil s)
      · rw [joinWith_cons2, hc]
        rw [h] at ih
        rw [ih]
        rfl
    · rw [if_neg hc]
      rcases h : splitLines s with _ | ⟨l, ls⟩
      · exact absurd h (splitLines_ne_nil s)
      · rw [h] at ih
        rw [joinWith_cons_head, ih]

theorem isWordChar_newline : isWordChar '\n' = false := by decide

theorem tokenize_joinWith_newline :
    ∀ ls : List (List Char),
      tokenize (joinWith ['\n'] ls) = (ls.map tokenize).flatten := by
  intro ls
  induction ls with
  | nil => rfl
  | cons x tl ih =>
    cases tl with
    | nil => simp [joinWith]
    | cons y zs =>
      rw [joinWith_cons2]
      have : x ++ ['\n'] ++ joinWith ['\n'] (y :: zs) =
          x ++ '\n' :: joinWith ['\n'] (y :: zs) := by
        simp
      rw [this, tokenize_append_nonword isWordChar_newline _ x, ih]
      simp

theorem tokenize_eq_join_lines (s : List Char) :
    tokenize s = ((splitLines s).map tokenize).flatten := by
  conv_lhs => rw [← joinWith_splitLines s]
  exact tokenize_joinWith_newline (splitLines s)

theorem mem_tokenize_of_mem_splitLines {s line w : List Char}
    (hline : line ∈ splitLines s) (hw : w ∈ tokenize line) :
    w ∈ tokenize s := by
  rw [tokenize_eq_join_lines]
  exact List.mem_flatten.mpr ⟨tokenize line, List.mem_map_of_mem _ hline, hw⟩

/-! ## Frequency-table lemmas -/

/-- The numeric reading of a stored value (non-numbers contribute 0). -/
def numVal : JsVal → Nat
  | JsVal.num n => n
  | _ => 0

/-- The total of all numeric counts stored in a frequency table. -/
def sumCounts (t : FrequencyTable) : Nat := (t.map fun p => numVal p.2).sum

/-- A stored value that is a strictly positive number. -/
def isPosNum : JsVal → Bool
  | JsVal.num n => decide (0 < n)
  | _ => false

/-- Every own entry holds a strictly positive numeric count. -/
def numericEntries (t : FrequencyTable) : Prop :=
  ∀ p ∈ t, ∃ n : Nat, 0 < n ∧ p.2 = JsVal.num n

/-- The numeric count stored at a key (0 when absent or non-numeric). -/
def numAt (t : FrequencyTable) (k : List Char) : Nat :=
  match ownLookup t k with
  | some (JsVal.num n) => n
  | _ => 0

theorem ownLookup_setOwn_self (t : FrequencyTable) (w : List Char) (v : JsVal) :
    ownLookup (setOwn t w v) w = some v := by
  induction t with
  | nil => simp [setOwn, ownLookup]
  | cons p rest ih =>
    obtain ⟨k, v₀⟩ := p
    by_cases hk : k = w
    · subst hk
      simp [setOwn, ownLookup]
    · simp only [setOwn, if_neg hk, ownLookup, if_neg hk]
      exact ih

theorem ownLookup_setOwn_ne (t : FrequencyTable) {w k : List Char} (v : JsVal)
    (h : k ≠ w) : ownLookup (setOwn t w v) k = ownLookup t k := by
  have hwk : ¬w = k := fun hh => h hh.symm
  induction t with
  | nil => simp [setOwn, ownLookup, hwk]
  | cons p rest ih =>
    obtain ⟨k₀, v₀⟩ := p
    by_cases hk : k₀ = w
    · subst hk
      simp [setOwn, ownLookup, hwk]
    · by_cases hk0 : k₀ = k
      · subst hk0
        simp [setOwn, ownLookup, hk]
      · simp only [setOwn, if_neg hk, ownLookup, if_neg hk0]
        exact ih

theorem jsLookup_notProto {k : List Char} (t : FrequencyTable)
    (h1 : k ≠ "constructor".data) (h2 : k ≠ "__proto__".data) :
    jsLookup t k = ownLookup t k := by
  unfold jsLookup
  rcases h : ownLookup t k with _ | v
  · simp [h, h1, h2]
  · simp [h]

theorem bump_notProto {w : List Char} (t : FrequencyTable)
    (h2 : w ≠ "__proto__".data) :
    bump t w = setOwn t w (jsOrZeroPlusOne (jsLookup t w)) := by
  unfold bump
  rw [if_neg h2]

theorem ownLookup_mem {t : FrequencyTable} {k : List Char} {v : JsVal}
    (h : ownLookup t k = some v) : (k, v) ∈ t := by
  induction t with
  | nil => simp [ownLookup] at h
  | cons p rest ih =>
    obtain ⟨k₀, v₀⟩ := p
    by_cases hk : k₀ = k
    · subst hk
      simp [ownLookup] at h
      subst h
      exact List.mem_cons_self _ _
    · simp only [ownLookup, if_neg hk] at h
      exact List.mem_cons_of_mem _ (ih h)

theorem mem_setOwn {t : FrequencyTable} {w : List Char} {v : JsVal}
    {p : List Char × JsVal} (hp : p ∈ setOwn t w v) : p ∈ t ∨ p = (w, v) := by
  induction t with
  | nil =>
    simp [setOwn] at hp
    right
    exact hp
  | cons q rest ih =>
    obtain ⟨k, v₀⟩ := q
    by_cases hk : k = w
    · subst hk
      simp only [setOwn, if_pos rfl] at hp
      rcases List.mem_cons.mp hp with hp | hp
      · right; exact hp
      · left; exact List.mem_cons_of_mem _ hp
    · simp only [setOwn, if_neg hk] at hp
      rcases List.mem_cons.mp hp with hp | hp
      · left
        rw [hp]
        exact List.mem_cons_self _ _
      · rcases ih hp with h | h
        · left; exact List.mem_cons_of_mem _ h
        · right; exact h

theorem bump_numeric {w : List Char} {t : FrequencyTable}
    (h1 : w ≠ "constructor".data) (h2 : w ≠ "__proto__".data)
    (ht : numericEntries t) : numericEntries (bump t w) := by
  rw [bump_notProto t h2, jsLookup_notProto t h1 h2]
  intro p hp
  rcases mem_setOwn hp with hmem | heq
  · exact ht p hmem
  · rcases hv : ownLookup t w with _ | v
    · rw [heq, hv]
      exact ⟨1, Nat.one_pos, rfl⟩
    · obtain ⟨n, hn, hveq⟩ := ht (w, v) (ownLookup_mem hv)
      have hv2 : v = JsVal.num n := hveq
      rw [heq, hv, hv2]
      exact ⟨n + 1, Nat.succ_pos n, rfl⟩

theorem numAt_bump_self {w : List Char} {t : FrequencyTable}
    (h1 : w ≠ "constructor".data) (h2 : w ≠ "__proto__".data)
    (ht : numericEntries t) : numAt (bump t w) w = numAt t w + 1 := by
  rw [bump_notProto t h2, jsLookup_notProto t h1 h2]
  unfold numAt
  rcases hv : ownLookup t w with _ | v
  · rw [ownLookup_setOwn_self]
    simp [jsOrZeroPlusOne]
  · obtain ⟨n, hn, hveq⟩ := ht (w, v) (ownLookup_mem hv)
    subst hveq
    rw [ownLookup_setOwn_self]
    simp [jsOrZeroPlusOne]

theorem numAt_bump_ne {w k : List Char} (t : FrequencyTable) (h : k ≠ w) :
    numAt (bump t w) k = numAt t k := by
  unfold bump
  by_cases hw : w = "__proto__".data
  · rw [if_pos hw]
  · rw [if_neg hw]
    unfold numAt
    rw [ownLookup_setOwn_ne t _ h]

theorem ownLookup_bump_none_iff {w k : List Char} {t : FrequencyTable}
    (h2 : w ≠ "__proto__".data) :
    ownLookup (bump t w) k = none ↔ (ownLookup t k = none ∧ k ≠ w) := by
  rw [bump_notProto t h2]
  by_cases hk : k = w
  · subst hk
    rw [ownLookup_setOwn_self]
    simp
  · rw [ownLookup_setOwn_ne t _ hk]
    simp [hk]

theorem foldl_bump_numeric (ws : List (List Char))
    (hws : ∀ w ∈ ws, w ≠ "constructor".data ∧ w ≠ "__proto__".data) :
    ∀ t : FrequencyTable, numericEntries t →
      numericEntries (List.foldl bump t ws) := by
  induction ws with
  | nil => intro t ht; simpa using ht
  | cons w ws ih =>
    intro t ht
    rw [List.foldl_cons]
    have hw := hws w (List.mem_cons_self _ _)
    exact ih (fun v hv => hws v (List.mem_cons_of_mem _ hv)) (bump t w)
      (bump_numeric hw.1 hw.2 ht)

theorem numAt_foldl (ws : List (List Char))
    (hws : ∀ w ∈ ws, w ≠ "constructor".data ∧ w ≠ "__proto__".data) :
    ∀ t : FrequencyTable, numericEntries t → ∀ k : List Char,
      numAt (List.foldl bump t ws) k = numAt t k + ws.count k := by
  induction ws with
  | nil => intro t ht k; simp
  | cons w ws ih =>
    intro t ht k
    rw [List.foldl_cons]
    have hw := hws w (List.mem_cons_self _ _)
    have hrest := fun v hv => hws v (List.mem_cons_of_mem _ hv)
    rw [ih hrest (bump t w) (bump_numeric hw.1 hw.2 ht) k]
    by_cases hk : k = w
    · subst hk
      rw [numAt_bump_self hw.1 hw.2 ht]
      simp [List.count_cons]
      omega
    · rw [numAt_bump_ne t hk]
      have : (w :: ws).count k = ws.count k := by
        simp [List.count_cons, hk]
      omega

theorem ownLookup_foldl_none_iff (ws : List (List Char))
    (hws : ∀ w ∈ ws, w ≠ "constructor".data ∧ w ≠ "__proto__".data) :
    ∀ (t : FrequencyTable) (k : List Char),
      ownLookup (List.foldl bump t ws) k = none ↔
        (ownLookup t k = none ∧ ws.count k = 0) := by
  induction ws with
  | nil => intro t k; simp
  | cons w ws ih =>
    intro t k
    rw [List.foldl_cons]
    have hw := hws w (List.mem_cons_self _ _)
    have hrest := fun v hv => hws v (List.mem_cons_of_mem _ hv)
    rw [ih hrest (bump t w) k, ownLookup_bump_none_iff hw.2]
    by_cases hk : k = w
    · subst hk
      simp [List.count_cons]
    · have : (w :: ws).count k = ws.count k := by
        simp [List.count_cons, hk]
      rw [this]
      constructor
      · rintro ⟨⟨hn, _⟩, hc⟩
        exact ⟨hn, hc⟩
      · rintro ⟨hn, hc⟩
        exact ⟨⟨hn, hk⟩, hc⟩

theorem sumCounts_setOwn_incr :
    ∀ (t : FrequencyTable) (w : List Char), numericEntries t →
      sumCounts (setOwn t w (jsOrZeroPlusOne (ownLookup t w))) =
        sumCounts t + 1 := by
  intro t
  induction t with
  | nil =>
    intro w _
    simp [setOwn, ownLookup, sumCounts, jsOrZeroPlusOne, numVal]
  | cons p rest ih =>
    intro w ht
    obtain ⟨k, v⟩ := p
    obtain ⟨n, hn, hveq⟩ := ht (k, v) (List.mem_cons_self _ _)
    have hrest : numericEntries rest := fun q hq => ht q (List.mem_cons_of_mem _ hq)
    by_cases hk : k = w
    · subst hk
      rw [show v = JsVal.num n from hveq]
      simp [ownLookup, setOwn, sumCounts, jsOrZeroPlusOne, numVal]
      omega
    · simp only [ownLookup, if_neg hk, setOwn]
      simp only [sumCounts, List.map_cons, List.sum_cons]
      have hr := ih w hrest
      simp only [sumCounts] at hr
      omega

theorem sumCounts_bump {w : List Char} {t : FrequencyTable}
    (h1 : w ≠ "constructor".data) (h2 : w ≠ "__proto__".data)
    (ht : numericEntries t) : sumCounts (bump t w) = sumCounts t + 1 := by
  rw [bump_notProto t h2, jsLookup_notProto t h1 h2]
  exact sumCounts_setOwn_incr t w ht

theorem sumCounts_foldl (ws : List (List Char))
    (hws : ∀ w ∈ ws, w ≠ "constructor".data ∧ w ≠ "__proto__".data) :
    ∀ t : FrequencyTable, numericEntries t →
      sumCounts (List.foldl bump t ws) = sumCounts t + ws.length := by
  induction ws with
  | nil => intro t ht; simp
  | cons w ws ih =>
    intro t ht
    rw [List.foldl_cons]
    have hw := hws w (List.mem_cons_self _ _)
    have hrest := fun v hv => hws v (List.mem_cons_of_mem _ hv)
    rw [ih hrest (bump t w) (bump_numeric hw.1 hw.2 ht),
      sumCounts_bump hw.1 hw.2 ht]
    simp [List.length_cons]
    omega

theorem ownLookup_getWordCounts (content k : List Char)
    (hws : ∀ w ∈ tokenize (jsLowerStr content),
      w ≠ "constructor".data ∧ w ≠ "__proto__".data) :
    ownLookup (getWordCounts content) k =
      if (tokenize (jsLowerStr content)).count k = 0 then none
      else some (JsVal.num ((tokenize (jsLowerStr content)).count k)) := by
  unfold getWordCounts
  by_cases h : (tokenize (jsLowerStr content)).count k = 0
  · rw [if_pos h]
    exact (ownLookup_foldl_none_iff _ hws [] k).mpr ⟨rfl, h⟩
  · rw [if_neg h]
    have hnil : numericEntries ([] : FrequencyTable) := by
      intro p hp
      simp at hp
    have hnumeric : numericEntries
        ((tokenize (jsLowerStr content)).foldl bump []) :=
      foldl_bump_numeric _ hws [] hnil
    rcases hlk : ownLookup ((tokenize (jsLowerStr content)).foldl bump []) k
      with _ | v
    · exact absurd ((ownLookup_foldl_none_iff _ hws [] k).mp hlk).2 h
    · obtain ⟨n, hn, hveq⟩ := hnumeric (k, v) (ownLookup_mem hlk)
      subst hveq
      have hnum := numAt_foldl _ hws [] hnil k
      unfold numAt at hnum
      rw [hlk] at hnum
      simp only [ownLookup] at hnum
      rw [hnum]
      simp

theorem numericEntries_all_isPosNum {t : FrequencyTable}
    (ht : numericEntries t) : (t.all fun p => isPosNum p.2) = true := by
  rw [List.all_eq_true]
  intro p hp
  obtain ⟨n, hn, hv⟩ := ht p hp
  rw [hv]
  unfold isPosNum
  simpa using hn

theorem jsLookup_special_ne_none (t : FrequencyTable) {k : List Char}
    (h : k = "constructor".data ∨ k = "__proto__".data) :
    jsLookup t k ≠ none := by
  unfold jsLookup
  rcases hv : ownLookup t k with _ | v
  · rcases h with h | h <;> subst h <;> simp
  · simp

theorem jsLookup_of_ownLookup_some {t : FrequencyTable} {k : List Char}
    {v : JsVal} (h : ownLookup t k = some v) : jsLookup t k = some v := by
  unfold jsLookup
  rw [h]

theorem ownLookup_bump_pres {t : FrequencyTable} {w k : List Char}
    (h : ownLookup t k ≠ none) : ownLookup (bump t w) k ≠ none := by
  unfold bump
  by_cases hw : w = "__proto__".data
  · rw [if_pos hw]
    exact h
  · rw [if_neg hw]
    by_cases hk : k = w
    · subst hk
      rw [ownLookup_setOwn_self]
      simp
    · rw [ownLookup_setOwn_ne t _ hk]
      exact h

theorem ownLookup_bump_self_ne_none {t : FrequencyTable} {k : List Char}
    (h2 : k ≠ "__proto__".data) : ownLookup (bump t k) k ≠ none := by
  rw [bump_notProto t h2, ownLookup_setOwn_self]
  simp

theorem ownLookup_foldl_mem_ne_none (ws : List (List Char)) :
    ∀ (t : FrequencyTable) (k : List Char), k ≠ "__proto__".data →
      (k ∈ ws ∨ ownLookup t k ≠ none) →
      ownLookup (List.foldl bump t ws) k ≠ none := by
  induction ws with
  | nil =>
    intro t k _ h
    rcases h with h | h
    · simp at h
    · simpa using h
  | cons w ws ih =>
    intro t k hk h
    rw [List.foldl_cons]
    apply ih (bump t w) k hk
    rcases h with h | h
    · rcases List.mem_cons.mp h with h | h
      · subst h
        right
        exact ownLookup_bump_self_ne_none hk
      · left
        exact h
    · right
      exact ownLookup_bump_pres h

theorem jsLookup_getWordCounts_ne_none {content k : List Char}
    (hmem : k ∈ tokenize (jsLowerStr content)) :
    jsLookup (getWordCounts content) k ≠ none := by
  by_cases hs : k = "constructor".data ∨ k = "__proto__".data
  · exact jsLookup_special_ne_none _ hs
  · push_neg at hs
    have hown : ownLookup (getWordCounts content) k ≠ none := by
      unfold getWordCounts
      exact ownLookup_foldl_mem_ne_none _ [] k hs.2 (Or.inl hmem)
    rcases hv : ownLookup (getWordCounts content) k with _ | v
    · exact absurd hv hown
    · rw [jsLookup_of_ownLookup_some hv]
      simp

/-! ## Color buckets (spec side) and ANSI stripping -/

/-- The three fixed categories of the spec's data model (§3). -/
inductive Bucket : Type
  | Rare
  | Common
  | Frequent
deriving DecidableEq

/-- The color marker of each bucket per the spec (§6):
Rare → blue, Common → green, Frequent → red. -/
def ansiOf : Bucket → List Char
  | .Rare => ansiBlue
  | .Common => ansiGreen
  | .Frequent => ansiRed

/-- Modelled from the spec (§4.3 boundary policy): the number 1 is
`Rare`, the numbers 2–5 are `Common`, anything else — larger or zero
numbers, an absent (`undefined`) lookup, and every non-number value —
is `Frequent`. -/
def bucketSpec : Option JsVal → Bucket
  | some (JsVal.num n) =>
    if n = 1 then .Rare else if 2 ≤ n ∧ n ≤ 5 then .Common else .Frequent
  | _ => .Frequent

theorem colorWord_eq_wrap (w : List Char) (c : Option JsVal) :
    colorWord w c = ansiOf (bucketSpec c) ++ w ++ ansiReset := by
  rcases c with _ | v
  · rfl
  rcases v with n | s | _ | _
  · by_cases h1 : n = 1
    · subst h1
      rfl
    · by_cases h2 : 2 ≤ n ∧ n ≤ 5
      · have hb : ¬(some (JsVal.num n) = some (JsVal.num 1)) := by simp [h1]
        have hge : jsGe (some (JsVal.num n)) 2 = true := by simp [jsGe, h2.1]
        have hle : jsLe (some (JsVal.num n)) 5 = true := by simp [jsLe, h2.2]
        simp [colorWord, hb, hge, hle, bucketSpec, ansiOf, h1, h2]
      · have hb : ¬(some (JsVal.num n) = some (JsVal.num 1)) := by simp [h1]
        have hand : (jsGe (some (JsVal.num n)) 2 && jsLe (some (JsVal.num n)) 5) = false := by
          simp only [jsGe, jsLe, Bool.and_eq_false_iff, decide_eq_false_iff_not]
          omega
        simp [colorWord, hb, hand, bucketSpec, ansiOf, h1, h2]
  · rfl
  · rfl
  · rfl

/-- Removes ANSI escape sequences: outside an escape (flag `false`) the
escape character starts one, inside (flag `true`) characters are dropped
up to and including the terminating `m`. -/
def stripAnsiAux : List Char → Bool → List Char
  | [], _ => []
  | c :: rest, true => stripAnsiAux rest (c != 'm')
  | c :: rest, false =>
    if c = esc then stripAnsiAux rest true else c :: stripAnsiAux rest false

/-- Strip all ANSI color escape sequences from a string. -/
def stripAnsi (s : List Char) : List Char := stripAnsiAux s false

theorem stripAnsiAux_cons_nonesc {c : Char} (h : ¬c = esc) (r : List Char) :
    stripAnsiAux (c :: r) false = c :: stripAnsiAux r false := by
  simp [stripAnsiAux, h]

theorem word_ne_esc {c : Char} (hc : isWordChar c = true) : ¬c = esc := by
  intro h
  subst h
  revert hc
  decide

theorem stripAnsiAux_code (x y : Char) (r : List Char)
    (hx : (x != 'm') = true) (hy : (y != 'm') = true) :
    stripAnsiAux ([esc, '[', x, y, 'm'] ++ r) false = stripAnsiAux r false := by
  simp [stripAnsiAux, hx, hy]

theorem stripAnsiAux_ansiOf (b : Bucket) (r : List Char) :
    stripAnsiAux (ansiOf b ++ r) false = stripAnsiAux r false := by
  cases b <;> exact stripAnsiAux_code _ _ r (by decide) (by decide)

theorem stripAnsiAux_ansiReset (r : List Char) :
    stripAnsiAux (ansiReset ++ r) false = stripAnsiAux r false :=
  stripAnsiAux_code _ _ r (by decide) (by decide)

theorem stripAnsiAux_append_word (w : List Char)
    (hw : ∀ c ∈ w, isWordChar c = true) (r : List Char) :
    stripAnsiAux (w ++ r) false = w ++ stripAnsiAux r false := by
  induction w with
  | nil => rfl
  | cons c w' ih =>
    rw [List.cons_append,
      stripAnsiAux_cons_nonesc (word_ne_esc (hw c (List.mem_cons_self c w'))) _,
      ih (fun e he => hw e (List.mem_cons_of_mem c he))]
    rfl

theorem stripAnsiAux_colored_join (f : List Char → Option JsVal) :
    ∀ (toks : List (List Char)),
      (∀ w ∈ toks, ∀ c ∈ w, isWordChar c = true) →
      ∀ r : List Char,
        stripAnsiAux (joinWith [' '] (toks.map fun w => colorWord w (f w)) ++ r)
            false =
          joinWith [' '] toks ++ stripAnsiAux r false := by
  intro toks
  induction toks with
  | nil => intro _ r; rfl
  | cons w tl ih =>
    intro htoks r
    have hw : ∀ c ∈ w, isWordChar c = true :=
      htoks w (List.mem_cons_self w tl)
    have htl : ∀ v ∈ tl, ∀ c ∈ v, isWordChar c = true :=
      fun v hv => htoks v (List.mem_cons_of_mem w hv)
    cases tl with
    | nil =>
      show stripAnsiAux (colorWord w (f w) ++ r) false = w ++ stripAnsiAux r false
      rw [colorWord_eq_wrap]
      rw [List.append_assoc, List.append_assoc]
      rw [stripAnsiAux_ansiOf, stripAnsiAux_append_word w hw,
        stripAnsiAux_ansiReset]
    | cons y zs =>
      have e1 : joinWith [' ']
            (List.map (fun v => colorWord v (f v)) (w :: y :: zs)) =
          colorWord w (f w) ++ [' '] ++
            joinWith [' '] (List.map (fun v => colorWord v (f v)) (y :: zs)) := by
        rw [List.map_cons, List.map_cons, joinWith_cons2]
      have e2 : joinWith [' '] (w :: y :: zs) =
          w ++ [' '] ++ joinWith [' '] (y :: zs) := joinWith_cons2 _ _ _ _
      rw [e1, e2]
      have e3 : colorWord w (f w) ++ [' '] ++
            joinWith [' '] (List.map (fun v => colorWord v (f v)) (y :: zs)) ++ r =
          colorWord w (f w) ++ (' ' ::
            (joinWith [' '] (List.map (fun v => colorWord v (f v)) (y :: zs)) ++ r)) := by
        simp
      rw [e3, colorWord_eq_wrap, List.append_assoc, List.append_assoc,
        stripAnsiAux_ansiOf, stripAnsiAux_append_word w hw,
        stripAnsiAux_ansiReset,
        stripAnsiAux_cons_nonesc (by decide) _, ih htl r]
      simp

theorem stripAnsi_coloredLine (wordCount : FrequencyTable) (line : List Char) :
    stripAnsi (coloredLine wordCount line) =
      joinWith [' '] (tokenize line) ++ [' '] := by
  unfold stripAnsi coloredLine
  rw [stripAnsiAux_colored_join _ (tokenize line)
    (fun w hw => mem_tokenize_word w hw) [' ']]
  rfl

/-! ## Remaining support definitions and lemmas -/

theorem splitLines_append_newline (s : List Char) :
    splitLines (s ++ ['\n']) = splitLines s ++ [[]] := by
  induction s with
  | nil => rfl
  | cons c s ih =>
    rw [List.cons_append, splitLines_cons, splitLines_cons]
    by_cases hc : c = '\n'
    · rw [if_pos hc, if_pos hc, ih]
      rfl
    · rw [if_neg hc, if_neg hc]
      rcases h : splitLines s with _ | ⟨l, ls⟩
      · exact absurd h (splitLines_ne_nil s)
      · rw [ih, h]
        rfl

/-- Modelled from the spec (§4.4): tokenize the line case-preservingly,
classify each token's bucket from the lowercased lookup, wrap the
original-case token in its bucket's color marker, join with a single
space and append exactly one trailing space. -/
def coloredLineSpec (t : FrequencyTable) (line : List Char) : List Char :=
  joinWith [' ']
      ((tokenize line).map fun w =>
        ansiOf (bucketSpec (jsLookup t (jsLowerStr w))) ++ w ++ ansiReset)
    ++ [' ']

/-- An ASCII character (code point below 128). -/
def isAsciiChar (c : Char) : Bool := decide (c.toNat < 128)

/-- Property names inherited by plain JavaScript objects from
`Object.prototype` that the spec's implicit-claim about exact counts
excludes as tokens. -/
def protoNames : List (List Char) :=
  ["constructor".data, "toString".data, "hasOwnProperty".data,
    "valueOf".data, "__proto__".data]

theorem mem_tokenize_map_asciiToLower {content w : List Char}
    (hw : w ∈ tokenize content) :
    w.map asciiToLower ∈ tokenize (content.map asciiToLower) := by
  rw [tokenize_map_asciiToLower]
  exact List.mem_map_of_mem _ hw

theorem isAsciiChar_of_word {c : Char} (hc : isWordChar c = true) :
    isAsciiChar c = true := by
  unfold isWordChar at hc
  unfold isAsciiChar
  rw [decide_eq_true_eq] at hc ⊢
  omega

theorem jsToLower_ascii {c : Char} (h : isAsciiChar c = true) :
    jsToLower c = [asciiToLower c] := by
  unfold isAsciiChar at h
  rw [decide_eq_true_eq] at h
  unfold jsToLower
  rw [if_neg (by omega), if_neg (by omega)]

theorem jsLowerStr_ascii {s : List Char} (h : ∀ c ∈ s, isAsciiChar c = true) :
    jsLowerStr s = s.map asciiToLower := by
  induction s with
  | nil => rfl
  | cons c s ih =>
    unfold jsLowerStr at ih ⊢
    rw [List.map_cons, List.flatten_cons,
      jsToLower_ascii (h c (List.mem_cons_self c s)),
      ih (fun e he => h e (List.mem_cons_of_mem c he)), List.map_cons]
    rfl

theorem jsLowerStr_word {w : List Char} (hw : ∀ c ∈ w, isWordChar c = true) :
    jsLowerStr w = w.map asciiToLower :=
  jsLowerStr_ascii fun c hc => isAsciiChar_of_word (hw c hc)

theorem tokenize_jsLowerStr_ascii {content : List Char}
    (h : content.all isAsciiChar = true) :
    tokenize (jsLowerStr content) =
      (tokenize content).map (List.map asciiToLower) := by
  rw [jsLowerStr_ascii (List.all_eq_true.mp h), tokenize_map_asciiToLower]

theorem map_jsLowerStr_tokens (content : List Char) :
    (tokenize content).map jsLowerStr =
      (tokenize content).map (List.map asciiToLower) :=
  List.map_congr_left fun w hw => jsLowerStr_word (mem_tokenize_word w hw)

theorem notProto_of_notContains {w : List Char}
    (h : (!protoNames.contains w) = true) :
    w ≠ "constructor".data ∧ w ≠ "__proto__".data := by
  constructor <;> intro he <;> subst he <;> revert h <;> decide

/-! ## Claim theorems -/

/-- Counterexample to C1 as stated: for the one-character input U+212A
KELVIN SIGN (whose JS lowercase is `k`) the frequency table is `{k: 1}`
with count sum 1 although tokenizing the input itself yields no tokens;
and for the input `__proto__` the assignment hits the inherited
`__proto__` setter and is a silent no-op, so the table stays empty
(sum 0) although the input has one token. -/
theorem getWordCounts_pos_and_sum_counterexample :
    getWordCounts [Char.ofNat 0x212A] = [("k".data, JsVal.num 1)] ∧
    tokenize [Char.ofNat 0x212A] = [] ∧
    sumCounts (getWordCounts [Char.ofNat 0x212A]) ≠
      (tokenize [Char.ofNat 0x212A]).length ∧
    getWordCounts "__proto__".data = [] ∧
    (tokenize "__proto__".data).length = 1 ∧
    sumCounts (getWordCounts "__proto__".data) ≠
      (tokenize "__proto__".data).length := by
  refine ⟨by decide, by decide, by decide, by decide, by decide, by decide⟩

/-- **C1 (amended).** For every ASCII input string none of whose
lowercased tokens is an inherited `Object.prototype` property name, the
frequency table returned by `getWordCounts` contains only strictly
positive numeric counts, and the sum of all its counts equals the total
number of tokens produced by tokenizing the same input (splitting on
runs of non-word characters and discarding empty results). -/
theorem getWordCounts_pos_and_sum (content : List Char)
    (hA : content.all isAsciiChar = true)
    (hP : ((tokenize (jsLowerStr content)).all fun w =>
      !protoNames.contains w) = true) :
    ((getWordCounts content).all fun p => isPosNum p.2) = true ∧
    sumCounts (getWordCounts content) = (tokenize content).length := by
  have hws : ∀ w ∈ tokenize (jsLowerStr content),
      w ≠ "constructor".data ∧ w ≠ "__proto__".data :=
    fun w hw => notProto_of_notContains (List.all_eq_true.mp hP w hw)
  have hnil : numericEntries ([] : FrequencyTable) := by
    intro p hp
    simp at hp
  unfold getWordCounts
  constructor
  · exact numericEntries_all_isPosNum (foldl_bump_numeric _ hws [] hnil)
  · rw [sumCounts_foldl _ hws [] hnil]
    have hlen : (tokenize (jsLowerStr content)).length =
        (tokenize content).length := by
      rw [tokenize_jsLowerStr_ascii hA, List.length_map]
    rw [hlen]
    simp [sumCounts]

/-- Witness for C1 (amended) at the concrete content
`"Hello, hello world!"`. -/
theorem getWordCounts_pos_and_sum_witness :
    ("Hello, hello world!".data.all isAsciiChar = true ∧
      ((tokenize (jsLowerStr "Hello, hello world!".data)).all fun w =>
        !protoNames.contains w) = true) ∧
    (((getWordCounts "Hello, hello world!".data).all fun p =>
        isPosNum p.2) = true ∧
      sumCounts (getWordCounts "Hello, hello world!".data) =
        (tokenize "Hello, hello world!".data).length) :=
  ⟨⟨by decide, by decide⟩,
    getWordCounts_pos_and_sum "Hello, hello world!".data
      (by decide) (by decide)⟩

/-- **C2.** The classifier `colorWord` is total: the number 1 gives the
Rare bucket (blue), the numbers 2–5 give the Common bucket (green), and
every other value — larger counts, 0, the `undefined` of an absent
lookup, and the non-number values reachable through the prototype
chain — gives the Frequent bucket (red). -/
theorem colorWord_classifies (word : List Char) (count : Option JsVal) :
    colorWord word count = ansiOf (bucketSpec count) ++ word ++ ansiReset ∧
    bucketSpec (some (JsVal.num 1)) = Bucket.Rare ∧
    bucketSpec (some (JsVal.num 2)) = Bucket.Common ∧
    bucketSpec (some (JsVal.num 5)) = Bucket.Common ∧
    bucketSpec (some (JsVal.num 6)) = Bucket.Frequent ∧
    bucketSpec (some (JsVal.num 0)) = Bucket.Frequent ∧
    bucketSpec none = Bucket.Frequent ∧
    bucketSpec (some JsVal.fnObject) = Bucket.Frequent ∧
    bucketSpec (some JsVal.protoObject) = Bucket.Frequent :=
  ⟨colorWord_eq_wrap word count, by decide, by decide, by decide,
    by decide, by decide, rfl, rfl, rfl⟩

/-- **C3.** The renderer tokenizes each selected line case-preservingly,
classifies each token via the lowercased lookup, wraps the original-case
token in its bucket's color marker, joins with single spaces and appends
exactly one trailing space; rendering `"cat dog cat"` against
`{cat: 2, dog: 1}` yields the tokens colored [Common, Rare, Common], the
literal string `"cat dog cat "` under color stripping. -/
theorem coloredLine_spec_and_example :
    (∀ (t : FrequencyTable) (line : List Char),
        coloredLine t line = coloredLineSpec t line) ∧
    coloredLine [("cat".data, JsVal.num 2), ("dog".data, JsVal.num 1)]
        "cat dog cat".data =
      (ansiGreen ++ "cat".data ++ ansiReset) ++ [' '] ++
        (ansiBlue ++ "dog".data ++ ansiReset) ++ [' '] ++
        (ansiGreen ++ "cat".data ++ ansiReset) ++ [' '] ∧
    stripAnsi
        (coloredLine [("cat".data, JsVal.num 2), ("dog".data, JsVal.num 1)]
          "cat dog cat".data) =
      "cat dog cat ".data := by
  refine ⟨?_, by decide, by decide⟩
  intro t line
  unfold coloredLine coloredLineSpec
  have hfun : (fun w => colorWord w (jsLookup t (jsLowerStr w))) =
      fun w : List Char =>
        ansiOf (bucketSpec (jsLookup t (jsLowerStr w))) ++ w ++ ansiReset :=
    funext fun w => colorWord_eq_wrap w _
  rw [hfun]

/-- **C10.** Counting the input `"Hello, hello world!"` yields exactly the
frequency table `{hello: 2, world: 1}`, with tokens case-folded to
lowercase. -/
theorem getWordCounts_hello_example :
    getWordCounts "Hello, hello world!".data =
      [("hello".data, JsVal.num 2), ("world".data, JsVal.num 1)] := by decide

/-- **C4.** The renderer emits exactly `min 15 (number of newline-split
lines)` rendered lines; the `i`-th output line is the rendering of the
`i`-th input line for `i < 15`, and lines beyond the 15th contribute
nothing to the output. -/
theorem printColoredLines_first15 (content : List Char)
    (wordCount : FrequencyTable) :
    (printColoredLines content wordCount).length =
      min 15 (splitLines content).length ∧
    (∀ i : Nat, (printColoredLines content wordCount)[i]? =
      if i < 15 then ((splitLines content)[i]?).map (coloredLine wordCount)
      else none) ∧
    printColoredLines content wordCount =
      ((splitLines content).take 15).map (coloredLine wordCount) := by
  refine ⟨?_, ?_, rfl⟩
  · unfold printColoredLines
    rw [List.length_map, List.length_take]
  · intro i
    unfold printColoredLines
    rw [List.getElem?_map, List.getElem?_take]
    by_cases h : i < 15 <;> simp [h]

/-- **C5.** Round-trip: stripping all color wrapping from the rendered
output of a line reproduces the space-joined sequence of the line's
original tokens followed by the single trailing space; removing that
trailing space reproduces exactly the space-joined original tokens, case
and order preserved. -/
theorem stripAnsi_coloredLine_roundtrip (wordCount : FrequencyTable)
    (line : List Char) :
    stripAnsi (coloredLine wordCount line) =
      joinWith [' '] (tokenize line) ++ [' '] ∧
    (stripAnsi (coloredLine wordCount line)).dropLast =
      joinWith [' '] (tokenize line) := by
  refine ⟨stripAnsi_coloredLine wordCount line, ?_⟩
  rw [stripAnsi_coloredLine]
  simp

/-- **C6.** For content that ends in a newline and has at most 15
newline-split lines, the empty trailing line produced by the final
newline counts as its own line and is rendered as its own output line
containing no words (just the mandatory trailing space). -/
theorem trailing_newline_renders_empty_line (wordCount : FrequencyTable)
    (s content : List Char) (hc : content = s ++ ['\n'])
    (hlen : (splitLines content).length ≤ 15) :
    splitLines content = splitLines s ++ [[]] ∧
    (printColoredLines content wordCount).length =
      (splitLines content).length ∧
    (printColoredLines content wordCount).getLast? =
      some (coloredLine wordCount []) ∧
    coloredLine wordCount [] = [' '] := by
  have hsplit : splitLines content = splitLines s ++ [[]] := by
    rw [hc, splitLines_append_newline]
  have hfull : printColoredLines content wordCount =
      (splitLines content).map (coloredLine wordCount) := by
    unfold printColoredLines
    rw [List.take_of_length_le hlen]
  refine ⟨hsplit, ?_, ?_, rfl⟩
  · rw [hfull, List.length_map]
  · rw [hfull, hsplit, List.map_append]
    exact List.getLast?_concat _

/-- Witness for C6 at the concrete content `"a\n"`. -/
theorem trailing_newline_renders_empty_line_witness :
    ("a\n".data = "a".data ++ ['\n'] ∧
      (splitLines "a\n".data).length ≤ 15) ∧
    (splitLines "a\n".data = splitLines "a".data ++ [[]] ∧
      (printColoredLines "a\n".data (getWordCounts "a\n".data)).length =
        (splitLines "a\n".data).length ∧
      (printColoredLines "a\n".data (getWordCounts "a\n".data)).getLast? =
        some (coloredLine (getWordCounts "a\n".data) []) ∧
      coloredLine (getWordCounts "a\n".data) [] = [' ']) :=
  ⟨⟨by decide, by decide⟩,
    trailing_newline_renders_empty_line (getWordCounts "a\n".data)
      "a".data "a\n".data (by decide) (by decide)⟩

/-- **C7.** If the input file is missing or unreadable, the pipeline fails
with a single fatal I/O error that propagates to the caller, and no
partial output is produced: the result of the whole pipeline is the error
alone, with no rendered lines. -/
theorem missing_file_propagates_error (fileSystem : Option (List Char))
    (h : fileSystem = none) :
    readFileContent fileSystem = Except.error IOErr.fileError ∧
    processFile fileSystem = Except.error IOErr.fileError := by
  subst h
  exact ⟨rfl, rfl⟩

/-- Witness for C7 at the concrete missing file system. -/
theorem missing_file_propagates_error_witness :
    (none : Option (List Char)) = none ∧
    (readFileContent none = Except.error IOErr.fileError ∧
      processFile none = Except.error IOErr.fileError) :=
  ⟨rfl, missing_file_propagates_error none rfl⟩

/-- Counterexample to C8 as stated: for the input `A` followed by U+212A
KELVIN SIGN, the rendered token `A` has an absent lowercased lookup —
the table, built from the lowercased content `ak`, is `{ak: 1}` — yet
line-level and whole-content tokenization agree on this input (both
produce exactly the token `A`), so an absent lookup does not imply that
they disagree. -/
theorem absent_lookup_counterexample :
    splitLines ['A', Char.ofNat 0x212A] = [['A', Char.ofNat 0x212A]] ∧
    tokenize ['A', Char.ofNat 0x212A] = [['A']] ∧
    ((splitLines ['A', Char.ofNat 0x212A]).map tokenize).flatten =
      tokenize ['A', Char.ofNat 0x212A] ∧
    getWordCounts ['A', Char.ofNat 0x212A] = [("ak".data, JsVal.num 1)] ∧
    jsLookup (getWordCounts ['A', Char.ofNat 0x212A]) (jsLowerStr ['A']) =
      none := by
  refine ⟨by decide, by decide, by decide, by decide, by decide⟩

/-- **C8 (amended).** If a token of a rendered line has a lowercased form
whose lookup in the frequency table is absent, then lowercasing does not
commute with tokenization on that input: the token sequence of the
lowercased content differs from the lowercased token sequence of the
input.  In particular, for content consisting only of ASCII characters
the two agree, every rendered token's lowercased form is found in the
table, and the undefined-lookup fallback is unreachable. -/
theorem absent_lookup_implies_noncommuting_lowercase (content : List Char) :
    ((((splitLines content).take 15).all fun line =>
      (tokenize line).all fun w =>
        ((jsLookup (getWordCounts content) (jsLowerStr w)).isSome ||
          decide (tokenize (jsLowerStr content) ≠
            (tokenize content).map jsLowerStr))) = true) ∧
    (((!content.all isAsciiChar) ||
      ((splitLines content).take 15).all fun line =>
        (tokenize line).all fun w =>
          (jsLookup (getWordCounts content) (jsLowerStr w)).isSome) = true) := by
  constructor
  · rw [List.all_eq_true]
    intro line hline
    rw [List.all_eq_true]
    intro w hw
    rw [Bool.or_eq_true]
    by_cases heq : tokenize (jsLowerStr content) =
        (tokenize content).map jsLowerStr
    · left
      rw [Option.isSome_iff_ne_none]
      apply jsLookup_getWordCounts_ne_none
      rw [heq]
      exact List.mem_map_of_mem _
        (mem_tokenize_of_mem_splitLines (List.take_subset 15 _ hline) hw)
    · right
      rw [decide_eq_true_eq]
      exact heq
  · rw [Bool.or_eq_true]
    by_cases hA : content.all isAsciiChar = true
    · right
      rw [List.all_eq_true]
      intro line hline
      rw [List.all_eq_true]
      intro w hw
      have hw' : w ∈ tokenize content :=
        mem_tokenize_of_mem_splitLines (List.take_subset 15 _ hline) hw
      have hmem : jsLowerStr w ∈ tokenize (jsLowerStr content) := by
        rw [tokenize_jsLowerStr_ascii hA,
          jsLowerStr_word (mem_tokenize_word w hw')]
        exact List.mem_map_of_mem _ hw'
      rw [Option.isSome_iff_ne_none]
      exact jsLookup_getWordCounts_ne_none hmem
    · left
      rw [Bool.not_eq_true']
      exact bool_eq_false hA

/-- Counterexample to C9 as stated: the one-character input U+212A KELVIN
SIGN has no tokens at all — so in particular none of its lowercased
tokens is an inherited property name — yet the program's table carries
the key `k` with count 1: the keys are not the lowercased tokens of the
input. -/
theorem getWordCounts_exact_counts_counterexample :
    tokenize [Char.ofNat 0x212A] = [] ∧
    getWordCounts [Char.ofNat 0x212A] = [("k".data, JsVal.num 1)] ∧
    ownLookup (getWordCounts [Char.ofNat 0x212A]) "k".data =
      some (JsVal.num 1) ∧
    "k".data ∉ (tokenize [Char.ofNat 0x212A]).map jsLowerStr := by
  refine ⟨by decide, by decide, by decide, by decide⟩

/-- **C9 (amended).** For every ASCII input string none of whose
lowercased tokens is a property name inherited by plain JavaScript
objects, `getWordCounts` returns a table whose own keys are exactly the
lowercased tokens of the input and whose stored value for each key is the
exact number of occurrences of that token, a positive integer. -/
theorem getWordCounts_exact_counts (content k : List Char)
    (hA : content.all isAsciiChar = true)
    (hP : ((tokenize (jsLowerStr content)).all fun w =>
      !protoNames.contains w) = true) :
    ownLookup (getWordCounts content) k =
      (if (tokenize (jsLowerStr content)).count k = 0 then none
        else some (JsVal.num ((tokenize (jsLowerStr content)).count k))) ∧
    tokenize (jsLowerStr content) = (tokenize content).map jsLowerStr := by
  have hws : ∀ w ∈ tokenize (jsLowerStr content),
      w ≠ "constructor".data ∧ w ≠ "__proto__".data :=
    fun w hw => notProto_of_notContains (List.all_eq_true.mp hP w hw)
  refine ⟨ownLookup_getWordCounts content k hws, ?_⟩
  rw [tokenize_jsLowerStr_ascii hA, map_jsLowerStr_tokens]

/-- Witness for C9 (amended) at the concrete content
`"Hello, hello world!"`. -/
theorem getWordCounts_exact_counts_witness :
    ("Hello, hello world!".data.all isAsciiChar = true ∧
      ((tokenize (jsLowerStr "Hello, hello world!".data)).all fun w =>
        !protoNames.contains w) = true) ∧
    (ownLookup (getWordCounts "Hello, hello world!".data) "hello".data =
      (if (tokenize (jsLowerStr "Hello, hello world!".data)).count
          "hello".data = 0 then none
        else some (JsVal.num
          ((tokenize (jsLowerStr "Hello, hello world!".data)).count
            "hello".data))) ∧
    tokenize (jsLowerStr "Hello, hello world!".data) =
      (tokenize "Hello, hello world!".data).map jsLowerStr) :=
  ⟨⟨by decide, by decide⟩,
    getWordCounts_exact_counts "Hello, hello world!".data "hello".data
      (by decide) (by decide)⟩

end App